import Mathlib

/-!
# githack: decoding the loose objects of a git object store

A shallow embedding of `main.go`.  Go strings and byte slices are lists of
bytes; a byte slice also carries the part of its backing array that lies
between its length and its capacity, because the slice expression
`chunk[:19]` of `TreeContent` is checked against the capacity, not the
length.  A run-time panic is an explicit outcome.  The library calls
(`os.Open`, `zlib.NewReader`, `ioutil.ReadAll`, `ioutil.ReadDir`, `sha1`) are
inputs of the model; `strings.Split`, `strconv.Atoi`, the `%x` verb of
`fmt.Sprintf` and the regular expression of `Objects` are written out from
their documented behaviour.
-/

namespace Githack

/-! ## Bytes, slices, panics -/

/-- One byte, the element of a Go `string` and of a `[]byte`. -/
abbrev Byte := Fin 256

/-- The bytes of an ASCII literal. -/
def ascii (s : String) : List Byte := s.data.map (fun c => Fin.ofNat c.toNat)

/-- The two run-time panics the program can raise. -/
inductive Panic
  | indexOutOfRange
  | sliceBoundsOutOfRange
  deriving DecidableEq, Repr

/-- Outcome of a piece of Go code: it returns a value or it panics. -/
inductive Run (α : Type)
  | done (a : α)
  | panic (p : Panic)
  deriving DecidableEq, Repr

/-- A `[]byte`: `elems` are its `len` elements, `spare` the bytes of the
backing array after them, up to the capacity. -/
structure Slice where
  elems : List Byte
  spare : List Byte
  deriving DecidableEq, Repr

/-- Go's `len(s)`. -/
def Slice.len (s : Slice) : Nat := s.elems.length

/-- Go's `cap(s)`. -/
def Slice.cap (s : Slice) : Nat := s.elems.length + s.spare.length

/-- The backing array from the first element of the slice on. -/
def Slice.store (s : Slice) : List Byte := s.elems ++ s.spare

/-- The slice expression `s[lo:hi]`; Go panics unless `lo ≤ hi ≤ cap(s)`. -/
def Slice.slice (s : Slice) (lo hi : Nat) : Run Slice :=
  if lo ≤ hi ∧ hi ≤ s.cap then
    .done ⟨(s.store.drop lo).take (hi - lo), s.store.drop hi⟩
  else .panic .sliceBoundsOutOfRange

/-- The index expression `xs[i]`; Go panics unless `i < len(xs)`. -/
def index {α : Type} (xs : List α) (i : Nat) : Run α :=
  match xs[i]? with
  | some a => .done a
  | none => .panic .indexOutOfRange

/-! ## Library functions -/

/-- `strings.Split(s, sep)` for a one-byte separator: the pieces of `s`
between the occurrences of `sep`; always at least one piece. -/
def Split (s : List Byte) (sep : Byte) : List (List Byte) :=
  match s with
  | [] => [[]]
  | b :: rest =>
    if b = sep then [] :: Split rest sep
    else
      match Split rest sep with
      | [] => [[b]]
      | piece :: pieces => (b :: piece) :: pieces

/-- One hexadecimal digit, lowercase. -/
def hexDigit (n : Nat) : Byte :=
  if n < 10 then Fin.ofNat (48 + n) else Fin.ofNat (87 + n)

/-- The two hexadecimal digits of a byte. -/
def hexByte (b : Byte) : List Byte := [hexDigit (b.val / 16), hexDigit (b.val % 16)]

/-- `fmt.Sprintf("%x", bs)` for a byte slice: two lowercase digits per byte. -/
def Sprintf_x (bs : List Byte) : List Byte := bs.flatMap hexByte

/-- The two errors of package `strconv`. -/
inductive NumError
  | ErrSyntax
  | ErrRange
  deriving DecidableEq, Repr

/-- Width of Go's `int` (a 64-bit platform). -/
def intSize : Nat := 64

/-- The digit loop of `strconv.ParseUint(s, 10, 0)`: a byte that is not a
decimal digit is a syntax error, a value beyond 64 bits a range error. -/
def parseUintLoop : List Byte → Nat → Except NumError Nat
  | [], n => .ok n
  | c :: cs, n =>
    if 48 ≤ c.val ∧ c.val ≤ 57 then
      if n * 10 + (c.val - 48) < 2 ^ intSize then parseUintLoop cs (n * 10 + (c.val - 48))
      else .error .ErrRange
    else .error .ErrSyntax

/-- `strconv.ParseUint(s, 10, 0)`. -/
def ParseUint (s : List Byte) : Except NumError Nat :=
  if s = [] then .error .ErrSyntax else parseUintLoop s 0

/-- `strconv.ParseInt(s, 10, 0)`: an optional sign, then `ParseUint`, then
the range of a signed `int`. -/
def ParseInt (s : List Byte) : Except NumError Int :=
  match s with
  | [] => .error .ErrSyntax
  | c :: rest =>
    let neg : Bool := c = 45
    let digits := if c = 43 ∨ c = 45 then rest else s
    match ParseUint digits with
    | .error e => .error e
    | .ok un =>
      if !neg && un ≥ 2 ^ (intSize - 1) then .error .ErrRange
      else if neg && un > 2 ^ (intSize - 1) then .error .ErrRange
      else .ok (if neg then -(un : Int) else (un : Int))

/-- `strconv.Atoi(s)`, which is `ParseInt(s, 10, 0)` converted to `int`. -/
def Atoi (s : List Byte) : Except NumError Int := ParseInt s

/-! ## The data model of `main.go` -/

/-- A Go `error` value that is not nil. -/
inductive GoError
  | pathError
  | zlibHeader
  | unexpectedEOF
  | zlibChecksum
  | headerFields (got : Nat)
  deriving DecidableEq, Repr

/-- `type ObjectFile struct`. -/
structure ObjectFile where
  Name : List Byte
  Mode : List Byte
  Hash : List Byte
  deriving DecidableEq, Repr

/-- `type ObjectContentTree struct`. -/
structure ObjectContentTree where
  Files : List ObjectFile
  deriving DecidableEq, Repr

/-- The two implementations of `interface ObjectContent`. -/
inductive ObjectContent
  | str (s : List Byte)
  | tree (t : ObjectContentTree)
  deriving DecidableEq, Repr

/-- `type Object struct`; a nil `Content` is `none`. -/
structure Object where
  Typ : List Byte
  Size : Int
  Content : Option ObjectContent
  Sha1 : List Byte
  deriving DecidableEq, Repr

/-- The zero value `var object Object`. -/
def Object.zero : Object := ⟨[], 0, none, []⟩

/-! ## `Header` -/

/-- `func Header(header []byte, object *Object) error`: the object after the
call and the returned error.  Only `string(header)` is read. -/
def Header (header : List Byte) (object : Object) : Object × Option GoError :=
  let headerFields := Split header 32
  match headerFields with
  | [typ, num] =>
    match Atoi num with
    | .error _ => (object, none)
    | .ok size => ({ object with Size := size, Typ := typ }, none)
  | _ => (object, some (.headerFields headerFields.length))

/-! ## `TreeContent` -/

/-- The `for i, chunk := range chunks` loop of `TreeContent` from `i = 1` on:
`first` is `chunks[0]`, `objFile` the entry under construction, `files` the
entries appended so far. -/
def treeLoop (first : Slice) : List Slice → ObjectFile → List ObjectFile → Run (List ObjectFile)
  | [], _, files => .done files
  | chunk :: rest, objFile, files =>
    match chunk.slice 0 19 with
    | .panic p => .panic p
    | .done digest =>
      let objFile := { objFile with Hash := Sprintf_x digest.elems }
      let files := files ++ [objFile]
      if chunk.len > 19 then
        let headers := Split first.elems 32
        match index headers 0, index headers 1 with
        | .done name, .done mode => treeLoop first rest ⟨name, mode, []⟩ files
        | .panic p, _ => .panic p
        | _, .panic p => .panic p
      else treeLoop first rest objFile files

/-- `func TreeContent(chunks ...[]byte) ObjectContentTree`. -/
def TreeContent (chunks : List Slice) : Run ObjectContentTree :=
  match chunks with
  | [] => .panic .indexOutOfRange
  | first :: rest =>
    let headers := Split first.elems 32
    match index headers 0, index headers 1 with
    | .done name, .done mode =>
      match treeLoop first rest ⟨name, mode, []⟩ [] with
      | .done files => .done ⟨files⟩
      | .panic p => .panic p
    | .panic p, _ => .panic p
    | _, .panic p => .panic p

/-! ## `ReadObject` -/

/-- The `for i, byte := range raw` loop of `ReadObject`: `i` is the index of
the next byte, the result is the final `chunks` and `lastNull`. -/
def scanNulls (raw : Slice) : List Byte → Nat → List Slice → Nat → Run (List Slice × Nat)
  | [], _, chunks, lastNull => .done (chunks, lastNull)
  | b :: rest, i, chunks, lastNull =>
    if b = 0 then
      match raw.slice lastNull i with
      | .done c => scanNulls raw rest (i + 1) (chunks ++ [c]) (i + 1)
      | .panic p => .panic p
    else scanNulls raw rest (i + 1) chunks lastNull

/-- Lines 114 to 116 of `ReadObject`: the bytes after the last null, when
there are any, are the last chunk. -/
def finishScan (raw : Slice) : Run (List Slice × Nat) → Run (List Slice)
  | .panic p => .panic p
  | .done (chunks, lastNull) =>
    if raw.len > lastNull then
      match raw.slice lastNull raw.len with
      | .done c => .done (chunks ++ [c])
      | .panic p => .panic p
    else .done chunks

/-- Lines 106 to 116 of `ReadObject`: the chunks of `raw`. -/
def scanChunks (raw : Slice) : Run (List Slice) :=
  finishScan raw (scanNulls raw raw.elems 0 [] 0)

/-- What `os.Open`, `zlib.NewReader` and `ioutil.ReadAll` deliver for one file
name: one of the three calls fails, or the stream inflates to `raw`. -/
inductive Stream
  | openFails (err : GoError)
  | zlibFails (err : GoError)
  | readFails (got : Slice) (err : GoError)
  | data (raw : Slice)
  deriving DecidableEq, Repr

/-- `func ReadObject(fileName string) (Object, error)`, given what the file
delivers and the SHA-1 function. -/
def ReadObject (sha1 : List Byte → List Byte) (file : Stream) : Run (Object × Option GoError) :=
  let object := Object.zero
  match file with
  | .openFails err => .done (object, some err)
  | .zlibFails err => .done (object, some err)
  | .readFails _ _ => .done (object, none)
  | .data raw =>
    match scanChunks raw with
    | .panic p => .panic p
    | .done chunks =>
      let object := { object with Sha1 := Sprintf_x (sha1 raw.elems) }
      match index chunks 0 with
      | .panic p => .panic p
      | .done header =>
        let object := (Header header.elems object).1
        if chunks.length = 2 then
          match index chunks 1 with
          | .panic p => .panic p
          | .done payload => .done ({ object with Content := some (.str payload.elems) }, none)
        else
          match TreeContent (chunks.drop 1) with
          | .panic p => .panic p
          | .done tree => .done ({ object with Content := some (.tree tree) }, none)

/-! ## `Objects` -/

/-- An `os.FileInfo`, as far as `Objects` reads it. -/
structure FileInfo where
  Name : List Byte
  IsDir : Bool
  deriving DecidableEq, Repr

/-- The file system under the repository: what `ioutil.ReadDir` returns for a
directory name, and what the three library calls of `ReadObject` deliver for a
file name. -/
structure FileSystem where
  ReadDir : List Byte → Except GoError (List FileInfo)
  file : List Byte → Stream

/-- `regexp.MustCompile("^[0-9a-f]{2}$").MatchString(name)`. -/
def MatchString (name : List Byte) : Bool :=
  match name with
  | [a, b] =>
    ((48 ≤ a.val && a.val ≤ 57) || (97 ≤ a.val && a.val ≤ 102))
      && ((48 ≤ b.val && b.val ≤ 57) || (97 ≤ b.val && b.val ≤ 102))
  | _ => false

/-- The state of `Objects` when it returns: the two results of the Go
function and, as a record of its effects, the file names it has handed to
`ReadObject`, in order. -/
structure Scan where
  objects : List Object
  err : Option GoError
  opened : List (List Byte)
  deriving DecidableEq, Repr

/-- The inner loop `for _, fileInfo := range files` of `Objects` for the
directory `dir`.  A result with an error is the `return objects, err` of the
function; a result without one is the end of the loop. -/
def readFiles (sha1 : List Byte → List Byte) (fs : FileSystem) (dir : List Byte) :
    List FileInfo → List Object → List (List Byte) → Run Scan
  | [], objects, opened => .done ⟨objects, none, opened⟩
  | fileInfo :: rest, objects, opened =>
    let fileName := dir ++ ascii "/" ++ fileInfo.Name
    match ReadObject sha1 (fs.file fileName) with
    | .panic p => .panic p
    | .done (_, some err) => .done ⟨objects, some err, opened ++ [fileName]⟩
    | .done (object, none) =>
      readFiles sha1 fs dir rest (objects ++ [object]) (opened ++ [fileName])

/-- The outer loop `for _, dirInfo := range folders` of `Objects`. -/
def scanFolders (sha1 : List Byte → List Byte) (fs : FileSystem) (repoDir : List Byte) :
    List FileInfo → List Object → List (List Byte) → Run Scan
  | [], objects, opened => .done ⟨objects, none, opened⟩
  | dirInfo :: rest, objects, opened =>
    if dirInfo.IsDir && MatchString dirInfo.Name then
      let dir := repoDir ++ ascii "/.git/objects/" ++ dirInfo.Name
      match fs.ReadDir dir with
      | .error err => .done ⟨objects, some err, opened⟩
      | .ok files =>
        match readFiles sha1 fs dir files objects opened with
        | .panic p => .panic p
        | .done ⟨objects, some err, opened⟩ => .done ⟨objects, some err, opened⟩
        | .done ⟨objects, none, opened⟩ => scanFolders sha1 fs repoDir rest objects opened
    else scanFolders sha1 fs repoDir rest objects opened

/-- `func Objects(repoDir string) ([]Object, error)`. -/
def Objects (sha1 : List Byte → List Byte) (fs : FileSystem) (repoDir : List Byte) : Run Scan :=
  match fs.ReadDir (repoDir ++ ascii "/.git/objects") with
  | .error err => .done ⟨[], some err, []⟩
  | .ok folders => scanFolders sha1 fs repoDir folders [] []

/-! ## Reference definitions for the statements -/

/-- The chunks the scan cuts from `cur ++ rest`, where `cur` are the bytes
read since the last null: a chunk ends at each null of `rest`, and its spare
capacity is everything after it in the buffer. -/
def cut (spare : List Byte) : List Byte → List Byte → List Slice
  | cur, [] => if cur = [] then [] else [⟨cur, spare⟩]
  | cur, b :: rest =>
    if b = 0 then ⟨cur, b :: rest ++ spare⟩ :: cut spare [] rest
    else cut spare (cur ++ [b]) rest

/-- The number a string of decimal digits denotes. -/
def decimal (digits : List Byte) : Nat :=
  digits.foldl (fun n c => n * 10 + (c.val - 48)) 0

/-- The byte is one of `0` to `9`. -/
def isDigit (c : Byte) : Prop := 48 ≤ c.val ∧ c.val ≤ 57

/-- The byte is one of `0` to `9` or `a` to `f`. -/
def isLowerHex (c : Byte) : Prop := (48 ≤ c.val ∧ c.val ≤ 57) ∨ (97 ≤ c.val ∧ c.val ≤ 102)

/-- The buffer ends in a null byte. -/
def endsInNull (raw : List Byte) : Prop := raw.getLast? = some 0

instance (c : Byte) : Decidable (isDigit c) := by unfold isDigit; infer_instance

instance (c : Byte) : Decidable (isLowerHex c) := by unfold isLowerHex; infer_instance

instance (raw : List Byte) : Decidable (endsInNull raw) := by unfold endsInNull; infer_instance

/-- The text of a prefix before its first space. -/
def beforeSpace (s : List Byte) : List Byte := s.takeWhile (fun b => b ≠ 32)

/-- The text of a prefix after its first space. -/
def afterSpace (s : List Byte) : List Byte := (s.dropWhile (fun b => b ≠ 32)).drop 1

/-- The name has exactly two characters, each one of `0-9a-f`. -/
def twoHexChars (name : List Byte) : Prop := name.length = 2 ∧ ∀ c ∈ name, isLowerHex c

instance (name : List Byte) : Decidable (twoHexChars name) := by
  unfold twoHexChars; infer_instance

/-- The entry of the objects directory is a directory with a two-character
hexadecimal name. -/
def picked (d : FileInfo) : Prop := d.IsDir = true ∧ twoHexChars d.Name

instance (d : FileInfo) : Decidable (picked d) := by unfold picked; infer_instance

/-- The name `Objects` gives to the directory of the entry `d`. -/
def dirName (repoDir : List Byte) (d : FileInfo) : List Byte :=
  repoDir ++ ascii "/.git/objects/" ++ d.Name

/-- The name `Objects` gives to the file `f` of the entry `d`. -/
def fileName (repoDir : List Byte) (d f : FileInfo) : List Byte :=
  dirName repoDir d ++ ascii "/" ++ f.Name

/-- The names of the files listed in the directory of the entry `d`, in
listing order (none when the listing fails). -/
def filesOf (fs : FileSystem) (repoDir : List Byte) (d : FileInfo) : List (List Byte) :=
  match fs.ReadDir (dirName repoDir d) with
  | .ok files => files.map (fileName repoDir d)
  | .error _ => []

/-- The names of the files of the picked entries of a listing, directories in
order and files in order within each. -/
def storeFiles (fs : FileSystem) (repoDir : List Byte) (folders : List FileInfo) :
    List (List Byte) :=
  (folders.filter (fun d => decide (picked d))).flatMap (filesOf fs repoDir)

/-- Listing the directory succeeds. -/
def listsOk (fs : FileSystem) (dir : List Byte) : Bool :=
  match fs.ReadDir dir with
  | .ok _ => true
  | .error _ => false

/-- Reading the file succeeds: `ReadObject` returns a nil error. -/
def readsOk (sha1 : List Byte → List Byte) (fs : FileSystem) (name : List Byte) : Bool :=
  match ReadObject sha1 (fs.file name) with
  | .done (_, none) => true
  | _ => false

/-- The object `ReadObject` returns for the file. -/
def objectAt (sha1 : List Byte → List Byte) (fs : FileSystem) (name : List Byte) : Object :=
  match ReadObject sha1 (fs.file name) with
  | .done (object, _) => object
  | .panic _ => Object.zero

/-- Nothing fails in the entries `folders`: every picked directory can be
listed and every file in it can be read. -/
def clean (sha1 : List Byte → List Byte) (fs : FileSystem) (repoDir : List Byte)
    (folders : List FileInfo) : Prop :=
  ∀ d ∈ folders, picked d →
    listsOk fs (dirName repoDir d) = true ∧ ∀ p ∈ filesOf fs repoDir d, readsOk sha1 fs p = true

instance (sha1 : List Byte → List Byte) (fs : FileSystem) (repoDir : List Byte)
    (folders : List FileInfo) : Decidable (clean sha1 fs repoDir folders) := by
  unfold clean; infer_instance

/-! ## Sample data for the concrete instances -/

/-- The twenty bytes `01 02 ... 14` (hexadecimal), a digest without a null. -/
def digestA : List Byte := (List.range 20).map (fun n => Fin.ofNat (n + 1))

/-- The twenty bytes `21 22 ... 34` (hexadecimal), a digest without a null. -/
def digestB : List Byte := (List.range 20).map (fun n => Fin.ofNat (n + 33))

/-- A function from bytes to twenty bytes, put in the place of SHA-1 where a
statement is instantiated at a concrete buffer. -/
def sampleHash (bs : List Byte) : List Byte := List.replicate 20 (Fin.ofNat bs.length)

/-- A store with one object directory `ab` holding two blobs, beside entries
that are not object directories. -/
def sampleStore : FileSystem where
  ReadDir := fun dir =>
    if dir = ascii "repo/.git/objects" then
      .ok [⟨ascii "AB", true⟩, ⟨ascii "ab", true⟩, ⟨ascii "abc", true⟩, ⟨ascii "cd", false⟩,
        ⟨ascii "info", true⟩, ⟨ascii "pack", true⟩]
    else if dir = ascii "repo/.git/objects/ab" then .ok [⟨ascii "f1", false⟩, ⟨ascii "f2", false⟩]
    else .error .pathError
  file := fun name =>
    if name = ascii "repo/.git/objects/ab/f1" then .data ⟨ascii "blob 5\x00hello", []⟩
    else if name = ascii "repo/.git/objects/ab/f2" then .data ⟨ascii "blob 2\x00hi", []⟩
    else .openFails .pathError

/-- A store whose directory `ab` holds a blob followed by a file that is not
a zlib stream, and then a third file. -/
def brokenStore : FileSystem where
  ReadDir := fun dir =>
    if dir = ascii "repo/.git/objects" then .ok [⟨ascii "ab", true⟩, ⟨ascii "cd", true⟩]
    else if dir = ascii "repo/.git/objects/ab" then
      .ok [⟨ascii "f1", false⟩, ⟨ascii "f2", false⟩, ⟨ascii "f3", false⟩]
    else .error .pathError
  file := fun name =>
    if name = ascii "repo/.git/objects/ab/f1" then .data ⟨ascii "blob 5\x00hello", []⟩
    else if name = ascii "repo/.git/objects/ab/f2" then .zlibFails .zlibHeader
    else .data ⟨ascii "blob 2\x00hi", []⟩

/-- A store whose first object directory `ab` holds one blob and whose second
object directory `cd` cannot be listed. -/
def unlistedStore : FileSystem where
  ReadDir := fun dir =>
    if dir = ascii "repo/.git/objects" then
      .ok [⟨ascii "ab", true⟩, ⟨ascii "cd", true⟩, ⟨ascii "ef", true⟩]
    else if dir = ascii "repo/.git/objects/ab" then .ok [⟨ascii "f1", false⟩]
    else .error .pathError
  file := fun _ => .data ⟨ascii "blob 5\x00hello", []⟩

/-! ## The scan of `ReadObject` -/

theorem slice_mid (s : Slice) (pre mid post : List Byte) (h : s.elems = pre ++ mid ++ post) :
    s.slice pre.length (pre.length + mid.length) = .done ⟨mid, post ++ s.spare⟩ := by
  unfold Slice.slice Slice.cap Slice.store
  rw [h, if_pos (by simp; omega)]
  simp [List.append_assoc]

theorem finish_scanNulls (raw : Slice) :
    ∀ (rest pre cur : List Byte) (chunks : List Slice) (i : Nat),
      raw.elems = pre ++ cur ++ rest → i = pre.length + cur.length →
      finishScan raw (scanNulls raw rest i chunks pre.length)
        = .done (chunks ++ cut raw.spare cur rest) := by
  intro rest
  induction rest with
  | nil =>
    intro pre cur chunks i h hi
    have h2 := slice_mid raw pre cur [] (by simpa using h)
    simp only [scanNulls, finishScan, cut, Slice.len]
    by_cases hc : cur = []
    · subst hc; simp [h]
    · have : 0 < cur.length := List.length_pos.mpr hc
      rw [if_pos (by rw [h]; simp; omega)]
      have e : (raw.elems).length = pre.length + cur.length := by rw [h]; simp
      rw [e, h2]; simp [hc]
  | cons b rest ih =>
    intro pre cur chunks i h hi
    by_cases hb : b = 0
    · subst hb
      have h2 := slice_mid raw pre cur (0 :: rest) h
      simp only [scanNulls, if_true, cut]
      rw [hi, h2]
      have := ih (pre ++ cur ++ [0]) [] (chunks ++ [⟨cur, 0 :: rest ++ raw.spare⟩])
        (pre.length + cur.length + 1) (by simp [h]) (by simp; omega)
      simp only [List.length_append, List.length_singleton] at this
      simpa using this
    · simp only [scanNulls, if_neg hb, cut]
      exact ih pre (cur ++ [b]) chunks (i + 1) (by simp [h]) (by simp [hi]; omega)

/-- The scan never panics, and its chunks are those of `cut`. -/
theorem scanChunks_eq (raw : Slice) : scanChunks raw = .done (cut raw.spare [] raw.elems) := by
  unfold scanChunks
  simpa using finish_scanNulls raw raw.elems [] [] [] 0 (by simp) (by simp)


/-! ## What the chunks are -/

theorem cut_nullfree (spare : List Byte) :
    ∀ (rest cur : List Byte), (0 : Byte) ∉ cur → ∀ c ∈ cut spare cur rest, (0 : Byte) ∉ c.elems := by
  intro rest
  induction rest with
  | nil =>
    intro cur hcur c hc
    by_cases h : cur = []
    · simp [cut, h] at hc
    · simp only [cut, if_neg h, List.mem_singleton] at hc
      subst hc; exact hcur
  | cons b rest ih =>
    intro cur hcur c hc
    by_cases hb : b = 0
    · simp only [cut, if_pos hb, List.mem_cons] at hc
      rcases hc with hc | hc
      · subst hc; exact hcur
      · exact ih [] (by simp) c hc
    · simp only [cut, if_neg hb] at hc
      refine ih (cur ++ [b]) ?_ c hc
      simp only [List.mem_append, List.mem_singleton, not_or]
      exact ⟨hcur, fun h => hb h.symm⟩

theorem getLast_nullfree (cur : List Byte) (h : (0 : Byte) ∉ cur) : ¬ endsInNull cur := by
  intro e
  exact h (List.mem_of_getLast?_eq_some e)

theorem endsInNull_after_null (pre rest : List Byte) (h : rest ≠ []) :
    endsInNull (pre ++ 0 :: rest) ↔ endsInNull rest := by
  unfold endsInNull
  obtain ⟨b, l, rfl⟩ := List.exists_cons_of_ne_nil h
  rw [List.getLast?_append_cons, List.getLast?_cons_cons]

theorem endsInNull_null (pre : List Byte) : endsInNull (pre ++ [0]) := by
  unfold endsInNull; simp

theorem cut_ne_nil (spare : List Byte) :
    ∀ (rest cur : List Byte), cur ++ rest ≠ [] → cut spare cur rest ≠ [] := by
  intro rest
  induction rest with
  | nil => intro cur h; simp at h; simp [cut, h]
  | cons b rest ih =>
    intro cur _
    by_cases hb : b = 0
    · simp [cut, hb]
    · simp only [cut, if_neg hb]
      exact ih (cur ++ [b]) (by simp)

theorem cut_length (spare : List Byte) :
    ∀ (rest cur : List Byte), (0 : Byte) ∉ cur →
      (cut spare cur rest).length
        = rest.count 0 + (if cur ++ rest ≠ [] ∧ ¬ endsInNull (cur ++ rest) then 1 else 0) := by
  intro rest
  induction rest with
  | nil =>
    intro cur hcur
    by_cases h : cur = []
    · simp [cut, h]
    · simp [cut, h, getLast_nullfree cur hcur]
  | cons b rest ih =>
    intro cur hcur
    by_cases hb : b = 0
    · subst hb
      simp only [cut, if_true, List.length_cons, ih [] (by simp), List.nil_append,
        List.count_cons_self]
      by_cases hr : rest = []
      · subst hr; simp [endsInNull_null]
      · simp [endsInNull_after_null cur rest hr, hr]; omega
    · have hb2 : ¬ (b == 0) = true := by simpa using hb
      have hc : (0 : Byte) ∉ cur ++ [b] := by
        simp only [List.mem_append, List.mem_singleton, not_or]
        exact ⟨hcur, fun h => hb h.symm⟩
      simp only [cut, if_neg hb, ih (cur ++ [b]) hc, List.append_assoc, List.singleton_append]
      rw [List.count_cons_of_ne (fun h => hb h.symm)]

theorem intercalate_cons_of_ne_nil {α : Type} (sep x : List α) (xs : List (List α)) (h : xs ≠ []) :
    List.intercalate sep (x :: xs) = x ++ sep ++ List.intercalate sep xs := by
  obtain ⟨y, ys, rfl⟩ := List.exists_cons_of_ne_nil h
  simp [List.intercalate, List.intersperse]

theorem cut_join (spare : List Byte) :
    ∀ (rest cur : List Byte), (0 : Byte) ∉ cur →
      List.intercalate [0] ((cut spare cur rest).map Slice.elems)
        ++ (if endsInNull (cur ++ rest) then [0] else []) = cur ++ rest := by
  intro rest
  induction rest with
  | nil =>
    intro cur hcur
    by_cases h : cur = []
    · simp [cut, h, List.intercalate, endsInNull]
    · simp [cut, h, getLast_nullfree cur hcur, List.intercalate]
  | cons b rest ih =>
    intro cur hcur
    by_cases hb : b = 0
    · subst hb
      simp only [cut, if_true, List.map_cons]
      by_cases hr : rest = []
      · subst hr; simp [cut, endsInNull_null, List.intercalate]
      · have hne : (cut spare [] rest).map Slice.elems ≠ [] := by
          simpa using cut_ne_nil spare rest [] (by simpa using hr)
        have := ih [] (by simp)
        simp only [List.nil_append] at this
        rw [intercalate_cons_of_ne_nil _ _ _ hne]
        simp only [endsInNull_after_null cur rest hr, List.append_assoc]
        rw [this]; simp
    · have hc : (0 : Byte) ∉ cur ++ [b] := by
        simp only [List.mem_append, List.mem_singleton, not_or]
        exact ⟨hcur, fun h => hb h.symm⟩
      simpa [cut, hb] using ih (cur ++ [b]) hc

/-! ## `strings.Split`, `strconv.Atoi` and `Header` -/

theorem Split_ne_nil (s : List Byte) (sep : Byte) : Split s sep ≠ [] := by
  cases s with
  | nil => simp [Split]
  | cons b rest =>
    unfold Split
    by_cases h : b = sep
    · simp [h]
    · simp only [if_neg h]
      split <;> simp

theorem Split_cons_ne (sep b : Byte) (rest : List Byte) (h : b ≠ sep) :
    Split (b :: rest) sep
      = match Split rest sep with
        | [] => [[b]]
        | piece :: pieces => (b :: piece) :: pieces := by
  rw [Split, if_neg h]

theorem Split_nosep (sep : Byte) : ∀ (s : List Byte), sep ∉ s → Split s sep = [s] := by
  intro s
  induction s with
  | nil => intro _; simp [Split]
  | cons b rest ih =>
    intro h
    simp only [List.mem_cons, not_or] at h
    rw [Split_cons_ne sep b rest (fun e => h.1 e.symm), ih h.2]

theorem Split_append_sep (sep : Byte) (tl : List Byte) :
    ∀ (s : List Byte), sep ∉ s → Split (s ++ sep :: tl) sep = s :: Split tl sep := by
  intro s
  induction s with
  | nil => intro _; simp [Split]
  | cons b rest ih =>
    intro h
    simp only [List.mem_cons, not_or] at h
    simp only [List.cons_append]
    rw [Split_cons_ne sep b _ (fun e => h.1 e.symm), ih h.2]

theorem foldl_decimal_ge (ds : List Byte) :
    ∀ n : Nat, n ≤ ds.foldl (fun n c => n * 10 + (c.val - 48)) n := by
  induction ds with
  | nil => intro n; simp
  | cons c cs ih =>
    intro n
    simp only [List.foldl_cons]
    exact le_trans (by omega) (ih _)

theorem parseUintLoop_digits (ds : List Byte) :
    ∀ n : Nat, (∀ c ∈ ds, isDigit c) →
      ds.foldl (fun n c => n * 10 + (c.val - 48)) n < 2 ^ intSize →
      parseUintLoop ds n = .ok (ds.foldl (fun n c => n * 10 + (c.val - 48)) n) := by
  induction ds with
  | nil => intro n _ _; simp [parseUintLoop]
  | cons c cs ih =>
    intro n hd hv
    have hc : 48 ≤ c.val ∧ c.val ≤ 57 := hd c (by simp)
    simp only [List.foldl_cons] at hv ⊢
    unfold parseUintLoop
    rw [if_pos hc, if_pos (lt_of_le_of_lt (foldl_decimal_ge cs _) hv)]
    exact ih _ (fun x hx => hd x (by simp [hx])) hv

theorem Atoi_digits (ds : List Byte) (hne : ds ≠ []) (hd : ∀ c ∈ ds, isDigit c)
    (hv : decimal ds < 2 ^ 63) : Atoi ds = .ok (decimal ds : Int) := by
  obtain ⟨c, cs, rfl⟩ := List.exists_cons_of_ne_nil hne
  have hc : isDigit c := hd c (by simp)
  have h43 : c ≠ 43 := by
    intro e; subst e; revert hc; decide
  have h45 : c ≠ 45 := by
    intro e; subst e; revert hc; decide
  have hu : ParseUint (c :: cs) = .ok (decimal (c :: cs)) := by
    unfold ParseUint
    rw [if_neg (by simp)]
    exact parseUintLoop_digits (c :: cs) 0 hd (lt_trans hv (by decide))
  unfold Atoi ParseInt
  simp only [h43, h45, or_self, if_false, hu, decide_False]
  have : ¬ (decimal (c :: cs) ≥ 2 ^ (intSize - 1)) := by
    simp only [intSize]; omega
  simp [this]

theorem digit_not_space (N : List Byte) (hd : ∀ c ∈ N, isDigit c) : (32 : Byte) ∉ N := by
  intro h
  have := hd 32 h
  revert this; decide

theorem Header_ok (T N : List Byte) (obj : Object) (hT : (32 : Byte) ∉ T) (hne : N ≠ [])
    (hd : ∀ c ∈ N, isDigit c) (hv : decimal N < 2 ^ 63) :
    Header (T ++ [32] ++ N) obj = ({ obj with Size := (decimal N : Int), Typ := T }, none) := by
  have hs : Split (T ++ [32] ++ N) 32 = [T, N] := by
    rw [List.append_assoc, List.singleton_append, Split_append_sep 32 N T hT,
      Split_nosep 32 N (digit_not_space N hd)]
  unfold Header
  simp only [hs, Atoi_digits N hne hd hv]


/-! ## Buffers of a given shape, `TreeContent`, `ReadObject` -/

theorem cut_cons_null (spare cur rest : List Byte) :
    cut spare cur (0 :: rest) = ⟨cur, 0 :: rest ++ spare⟩ :: cut spare [] rest := by
  rw [cut, if_pos rfl]

theorem cut_cons_ne (spare cur rest : List Byte) (b : Byte) (h : b ≠ 0) :
    cut spare cur (b :: rest) = cut spare (cur ++ [b]) rest := by
  rw [cut, if_neg h]

theorem cut_nil (spare cur : List Byte) (h : cur ≠ []) : cut spare cur [] = [⟨cur, spare⟩] := by
  rw [cut, if_neg h]

theorem cut_append_nullfree (spare rest : List Byte) :
    ∀ (A cur : List Byte), (0 : Byte) ∉ A → cut spare cur (A ++ rest) = cut spare (cur ++ A) rest := by
  intro A
  induction A with
  | nil => intro cur _; simp
  | cons a A ih =>
    intro cur h
    simp only [List.mem_cons, not_or] at h
    rw [List.cons_append, cut_cons_ne spare cur _ a (fun e => h.1 e.symm), ih (cur ++ [a]) h.2]
    simp

theorem cut_header_payload (spare H P : List Byte) (hH : (0 : Byte) ∉ H) (hP : (0 : Byte) ∉ P)
    (hne : P ≠ []) :
    cut spare [] (H ++ [0] ++ P) = [⟨H, 0 :: P ++ spare⟩, ⟨P, spare⟩] := by
  rw [List.append_assoc, cut_append_nullfree spare _ H [] hH]
  have := cut_append_nullfree spare [] P [] hP
  simp only [List.append_nil, List.nil_append] at this
  rw [List.nil_append, List.singleton_append, cut_cons_null, this, cut_nil spare P hne]

theorem slice_take (s : Slice) (n : Nat) (h : n ≤ s.elems.length) :
    s.slice 0 n = .done ⟨s.elems.take n, s.elems.drop n ++ s.spare⟩ := by
  have := slice_mid s [] (s.elems.take n) (s.elems.drop n) (by simp)
  simpa [List.length_take, Nat.min_eq_left h] using this

theorem treeLoop_eq (first : Slice) (name mode : List Byte) (more : List (List Byte))
    (hs : Split first.elems 32 = name :: mode :: more) :
    ∀ (rest : List Slice) (objFile : ObjectFile) (files : List ObjectFile),
      objFile.Name = name → objFile.Mode = mode → (∀ c ∈ rest, 19 ≤ c.elems.length) →
      treeLoop first rest objFile files
        = .done (files ++ rest.map (fun c => ⟨name, mode, Sprintf_x (c.elems.take 19)⟩)) := by
  intro rest
  induction rest with
  | nil => intro objFile files _ _ _; simp [treeLoop]
  | cons c rest ih =>
    intro objFile files hn hm hlen
    have hc : 19 ≤ c.elems.length := hlen c (by simp)
    have hrest : ∀ x ∈ rest, 19 ≤ x.elems.length := fun x hx => hlen x (by simp [hx])
    simp only [treeLoop, slice_take c 19 hc, hs, index, List.getElem?_cons_zero,
      List.getElem?_cons_succ]
    split
    · rw [ih _ _ rfl rfl hrest]
      simp [hn, hm]
    · rw [ih _ _ (by simpa using hn) (by simpa using hm) hrest]
      simp [hn, hm]

theorem TreeContent_eq (first : Slice) (rest : List Slice) (name mode : List Byte)
    (more : List (List Byte)) (hs : Split first.elems 32 = name :: mode :: more)
    (hlen : ∀ c ∈ rest, 19 ≤ c.elems.length) :
    TreeContent (first :: rest)
      = .done ⟨rest.map (fun c => ⟨name, mode, Sprintf_x (c.elems.take 19)⟩)⟩ := by
  simp only [TreeContent, hs, index, List.getElem?_cons_zero, List.getElem?_cons_succ]
  rw [treeLoop_eq first name mode more hs rest _ [] rfl rfl hlen]
  simp

theorem ReadObject_two_chunks (sha1 : List Byte → List Byte) (raw header payload : Slice)
    (h : cut raw.spare [] raw.elems = [header, payload]) :
    ReadObject sha1 (.data raw)
      = .done ({ (Header header.elems { Object.zero with Sha1 := Sprintf_x (sha1 raw.elems) }).1
                  with Content := some (.str payload.elems) }, none) := by
  simp [ReadObject, scanChunks_eq, h, index]

theorem ReadObject_more_chunks (sha1 : List Byte → List Byte) (raw header first : Slice)
    (rest : List Slice) (name mode : List Byte) (more : List (List Byte))
    (h : cut raw.spare [] raw.elems = header :: first :: rest) (hr : rest ≠ [])
    (hs : Split first.elems 32 = name :: mode :: more)
    (hlen : ∀ c ∈ rest, 19 ≤ c.elems.length) :
    ReadObject sha1 (.data raw)
      = .done ({ (Header header.elems { Object.zero with Sha1 := Sprintf_x (sha1 raw.elems) }).1
                  with Content := some (.tree
                    ⟨rest.map (fun c => ⟨name, mode, Sprintf_x (c.elems.take 19)⟩)⟩) }, none) := by
  have hl : ¬ (header :: first :: rest).length = 2 := by
    obtain ⟨c, cs, rfl⟩ := List.exists_cons_of_ne_nil hr
    simp
  simp only [ReadObject, scanChunks_eq, h, index, List.getElem?_cons_zero, if_neg hl,
    List.drop_succ_cons, List.drop_zero, TreeContent_eq first rest name mode more hs hlen]


/-! ## The digest field -/

theorem Header_Sha1 (h : List Byte) (o : Object) : (Header h o).1.Sha1 = o.Sha1 := by
  simp only [Header]
  split
  · split <;> rfl
  · rfl

theorem Sprintf_x_length (bs : List Byte) : (Sprintf_x bs).length = 2 * bs.length := by
  induction bs with
  | nil => rfl
  | cons b bs ih =>
    simp only [Sprintf_x, List.flatMap_cons, List.length_append, List.length_cons] at ih ⊢
    simp only [hexByte, List.length_cons, List.length_nil, ih]
    omega

theorem hexDigit_isLowerHex (n : Nat) (h : n < 16) : isLowerHex (hexDigit n) := by
  interval_cases n <;> decide

theorem Sprintf_x_hex (bs : List Byte) : ∀ c ∈ Sprintf_x bs, isLowerHex c := by
  intro c hc
  simp only [Sprintf_x, List.mem_flatMap, hexByte, List.mem_cons, List.mem_singleton,
    List.not_mem_nil, or_false] at hc
  obtain ⟨b, _, rfl | rfl⟩ := hc
  · exact hexDigit_isLowerHex _ (by have := b.isLt; omega)
  · exact hexDigit_isLowerHex _ (by omega)

theorem ReadObject_Sha1 (sha1 : List Byte → List Byte) (raw : Slice) (obj : Object)
    (err : Option GoError) (h : ReadObject sha1 (.data raw) = .done (obj, err)) :
    obj.Sha1 = Sprintf_x (sha1 raw.elems) := by
  simp only [ReadObject, scanChunks_eq] at h
  split at h
  · exact absurd h (by simp)
  · split at h
    · split at h
      · exact absurd h (by simp)
      · simp only [Run.done.injEq, Prod.mk.injEq] at h
        rw [← h.1]; simp [Header_Sha1]
    · split at h
      · exact absurd h (by simp)
      · simp only [Run.done.injEq, Prod.mk.injEq] at h
        rw [← h.1]; simp [Header_Sha1]

/-! ## The claims -/

/-- C1. Single-entry directory decode, on the buffer
`"tree 36\0" + "100644 file.txt\0" + digestA`: the claim asks for the one entry
with Name `file.txt`, Mode `100644` and the 40 hex digits of all 20 digest
bytes; the code returns one entry with Name `100644`, Mode `file.txt` and the
38 hex digits of the first 19 bytes. -/
theorem single_entry_tree_as_decoded (sha1 : List Byte → List Byte) (spare : List Byte) :
    ReadObject sha1 (.data ⟨ascii "tree 36\x00100644 file.txt\x00" ++ digestA, spare⟩)
      = .done (⟨ascii "tree", 36,
          some (.tree ⟨[⟨ascii "100644", ascii "file.txt",
            ascii "0102030405060708090a0b0c0d0e0f10111213"⟩]⟩),
          Sprintf_x (sha1 (ascii "tree 36\x00100644 file.txt\x00" ++ digestA))⟩, none) := by
  exact ReadObject_more_chunks sha1 ⟨ascii "tree 36\x00100644 file.txt\x00" ++ digestA, spare⟩ _ _
    [⟨digestA, spare⟩] (ascii "100644") (ascii "file.txt") [] rfl (by simp) rfl
    (by simp [digestA])

/-- C2. Opaque decode: for a type token `T` without space or null, a non-empty
string `N` of decimal digits whose value fits in a signed 64-bit integer, and a
non-empty payload `P` without null, `ReadObject` on `T + " " + N + "\0" + P`
returns, with a nil error, the object with Type `T`, Size the value of `N`
and Content the opaque string `P` (and Sha1 the hex digest of the buffer). -/
theorem opaque_decode (sha1 : List Byte → List Byte) (spare T N P : List Byte)
    (hT : (32 : Byte) ∉ T ∧ (0 : Byte) ∉ T) (hN : N ≠ [] ∧ ∀ c ∈ N, isDigit c)
    (hv : decimal N < 2 ^ 63) (hP : P ≠ [] ∧ (0 : Byte) ∉ P) :
    ReadObject sha1 (.data ⟨T ++ [32] ++ N ++ [0] ++ P, spare⟩)
      = .done (⟨T, (decimal N : Int), some (.str P),
                Sprintf_x (sha1 (T ++ [32] ++ N ++ [0] ++ P))⟩, none) := by
  have h0 : (0 : Byte) ∉ T ++ [32] ++ N := by
    simp only [List.mem_append, List.mem_singleton, not_or]
    refine ⟨⟨hT.2, by decide⟩, fun h => ?_⟩
    have := hN.2 0 h
    revert this; decide
  rw [ReadObject_two_chunks sha1 _ _ _ (cut_header_payload spare _ P h0 hP.2 hP.1),
    Header_ok T N _ hT.1 hN.1 hN.2 hv]

set_option maxRecDepth 100000 in
/-- The opaque decode at `"note 7\0hello"`: a type token that is not `blob` and
a declared size that is not the length of the payload. -/
theorem opaque_decode_witness :
    ((32 : Byte) ∉ ascii "note" ∧ (0 : Byte) ∉ ascii "note")
      ∧ (ascii "7" ≠ [] ∧ ∀ c ∈ ascii "7", isDigit c) ∧ decimal (ascii "7") < 2 ^ 63
      ∧ (ascii "hello" ≠ [] ∧ (0 : Byte) ∉ ascii "hello")
      ∧ ReadObject sampleHash (.data ⟨ascii "note" ++ [32] ++ ascii "7" ++ [0] ++ ascii "hello", []⟩)
        = .done (⟨ascii "note", 7, some (.str (ascii "hello")),
            Sprintf_x (sampleHash (ascii "note" ++ [32] ++ ascii "7" ++ [0] ++ ascii "hello"))⟩, none) :=
  ⟨by decide, by decide, by decide, by decide,
    opaque_decode sampleHash [] (ascii "note") (ascii "7") (ascii "hello")
      (by decide) (by decide) (by decide) (by decide)⟩

/-- C3. Truncated or corrupt stream: the claim asks for a non-nil error
whenever decompression fails; when `ioutil.ReadAll` fails, `ReadObject`
returns the zero object together with a nil error. -/
theorem failed_read_returns_nil_error (sha1 : List Byte → List Byte) (got : Slice)
    (err : GoError) :
    ReadObject sha1 (.readFails got err) = .done (Object.zero, none) := rfl

/-- C4. Malformed header at object level, on the buffer `"blob\0hello"`: the
claim asks for a failure and no object; `ReadObject` returns, with a nil error,
an object with empty Type and Size 0 whose Sha1 and Content are filled in. -/
theorem malformed_header_object_returned (sha1 : List Byte → List Byte) (spare : List Byte) :
    ReadObject sha1 (.data ⟨ascii "blob\x00hello", spare⟩)
      = .done (⟨[], 0, some (.str (ascii "hello")),
          Sprintf_x (sha1 (ascii "blob\x00hello"))⟩, none) := by
  exact ReadObject_two_chunks sha1 ⟨ascii "blob\x00hello", spare⟩ _ _ rfl

/-- C5. Header rejection: the claim asks for an error on `"blob abc"`,
`"blob "` and `"blob -5"`; `Header` returns a nil error on all three, leaving
the object untouched on the first two and storing Size `-5` on the third. -/
theorem header_bad_size_no_error (obj : Object) :
    Header (ascii "blob abc") obj = (obj, none)
      ∧ Header (ascii "blob ") obj = (obj, none)
      ∧ Header (ascii "blob -5") obj = ({ obj with Typ := ascii "blob", Size := -5 }, none) :=
  ⟨rfl, rfl, rfl⟩

/-- C6. Multi-entry directory decode, on the buffer
`"tree 63\0" + "100644 a.txt\0" + digestA + "40000 dir\0" + digestB`: the
claim asks for a second entry with Name `dir` and Mode `40000`; the code
returns two entries that both carry the fields of the first prefix
(Name `100644`, Mode `a.txt`), each with the hex digits of 19 bytes. -/
theorem second_entry_repeats_first (sha1 : List Byte → List Byte) (spare : List Byte) :
    ReadObject sha1
        (.data ⟨ascii "tree 63\x00100644 a.txt\x00" ++ digestA ++ ascii "40000 dir\x00" ++ digestB, spare⟩)
      = .done (⟨ascii "tree", 63,
          some (.tree ⟨[
            ⟨ascii "100644", ascii "a.txt", ascii "0102030405060708090a0b0c0d0e0f10111213"⟩,
            ⟨ascii "100644", ascii "a.txt", ascii "2122232425262728292a2b2c2d2e2f30313233"⟩]⟩),
          Sprintf_x (sha1
            (ascii "tree 63\x00100644 a.txt\x00" ++ digestA ++ ascii "40000 dir\x00" ++ digestB))⟩, none) := by
  exact ReadObject_more_chunks sha1
    ⟨ascii "tree 63\x00100644 a.txt\x00" ++ digestA ++ ascii "40000 dir\x00" ++ digestB, spare⟩ _ _
    [⟨digestA ++ ascii "40000 dir", 0 :: digestB ++ spare⟩, ⟨digestB, spare⟩]
    (ascii "100644") (ascii "a.txt") [] rfl (by simp) rfl (by simp [digestA, digestB]; omega)

/-- C7. Segment splitter: for every raw buffer the scan of `ReadObject` returns
chunks (it does not panic) such that no chunk contains a null byte, the number
of chunks is the number of null bytes of the buffer plus one when the buffer
is non-empty and does not end in a null, and joining the chunks with single
null bytes, with one more null appended when the buffer ends in a null, gives
back the buffer. -/
theorem scan_splits_at_every_null (raw : Slice) :
    ∃ chunks : List Slice, scanChunks raw = .done chunks
      ∧ (∀ c ∈ chunks, (0 : Byte) ∉ c.elems)
      ∧ chunks.length
          = raw.elems.count 0 + (if raw.elems ≠ [] ∧ ¬ endsInNull raw.elems then 1 else 0)
      ∧ List.intercalate [0] (chunks.map Slice.elems)
          ++ (if endsInNull raw.elems then [0] else []) = raw.elems := by
  refine ⟨cut raw.spare [] raw.elems, scanChunks_eq raw, ?_, ?_, ?_⟩
  · exact cut_nullfree raw.spare raw.elems [] (by simp)
  · simpa using cut_length raw.spare raw.elems [] (by simp)
  · simpa using cut_join raw.spare raw.elems [] (by simp)

/-- C8. Digest: with SHA-1 a given function from bytes to 20 bytes, whenever
`ReadObject` returns an object for a decompressed buffer, the Sha1 field is the
lowercase hex rendering of the SHA-1 of the complete buffer, has exactly 40
characters, each in `0-9a-f`; nothing else of the run (the chunks, the spare
capacity, what `Header` did) enters it. -/
theorem sha1_is_digest_of_raw (sha1 : List Byte → List Byte)
    (h20 : ∀ bs, (sha1 bs).length = 20) (raw : Slice) (obj : Object) (err : Option GoError)
    (h : ReadObject sha1 (.data raw) = .done (obj, err)) :
    obj.Sha1 = Sprintf_x (sha1 raw.elems) ∧ obj.Sha1.length = 40
      ∧ ∀ c ∈ obj.Sha1, isLowerHex c := by
  have e := ReadObject_Sha1 sha1 raw obj err h
  refine ⟨e, ?_, ?_⟩
  · rw [e, Sprintf_x_length, h20]
  · rw [e]; exact Sprintf_x_hex _

/-- The digest field at `"blob\0hello"`, a buffer whose header `Header` does
not accept. -/
theorem sha1_is_digest_of_raw_witness :
    (∀ bs, (sampleHash bs).length = 20)
      ∧ ReadObject sampleHash (.data ⟨ascii "blob\x00hello", []⟩)
          = .done (⟨[], 0, some (.str (ascii "hello")), ascii "0a0a0a0a0a0a0a0a0a0a0a0a0a0a0a0a0a0a0a0a"⟩, none)
      ∧ (ascii "0a0a0a0a0a0a0a0a0a0a0a0a0a0a0a0a0a0a0a0a"
            = Sprintf_x (sampleHash (ascii "blob\x00hello"))
          ∧ (ascii "0a0a0a0a0a0a0a0a0a0a0a0a0a0a0a0a0a0a0a0a").length = 40
          ∧ ∀ c ∈ ascii "0a0a0a0a0a0a0a0a0a0a0a0a0a0a0a0a0a0a0a0a", isLowerHex c) :=
  ⟨fun _ => List.length_replicate _ _, rfl,
    sha1_is_digest_of_raw sampleHash (fun _ => List.length_replicate _ _)
      ⟨ascii "blob\x00hello", []⟩
      ⟨[], 0, some (.str (ascii "hello")), ascii "0a0a0a0a0a0a0a0a0a0a0a0a0a0a0a0a0a0a0a0a"⟩ none rfl⟩

/-- C9. Header parse: for a type token `T` without space and a non-empty string
`N` of decimal digits whose value fits in a signed 64-bit integer, `Header` on
`T + " " + N` returns a nil error and sets Type to `T` and Size to the value
of `N`, whatever `T` is; the other fields are kept. -/
theorem header_parse_sets_type_and_size (T N : List Byte) (obj : Object)
    (hT : (32 : Byte) ∉ T) (hne : N ≠ []) (hd : ∀ c ∈ N, isDigit c)
    (hv : decimal N < 2 ^ 63) :
    Header (T ++ [32] ++ N) obj = ({ obj with Typ := T, Size := (decimal N : Int) }, none) :=
  Header_ok T N obj hT hne hd hv

set_option maxRecDepth 100000 in
/-- The header `"blob 11"` gives Type `blob` and Size 11. -/
theorem header_parse_sets_type_and_size_witness :
    (32 : Byte) ∉ ascii "blob" ∧ ascii "11" ≠ [] ∧ (∀ c ∈ ascii "11", isDigit c)
      ∧ decimal (ascii "11") < 2 ^ 63
      ∧ Header (ascii "blob" ++ [32] ++ ascii "11") Object.zero
          = ({ Object.zero with Typ := ascii "blob", Size := 11 }, none) :=
  ⟨by decide, by decide, by decide, by decide,
    header_parse_sets_type_and_size (ascii "blob") (ascii "11") Object.zero
      (by decide) (by decide) (by decide) (by decide)⟩

/-- C10. Mode and name of a directory entry: the claim asks for Mode the text
before the first space and Name all the text after it; on the segments
`"100644 file.txt"`, `digestA` the entry has Name `100644` and Mode `file.txt`,
and on `"100644 my file.txt"`, `digestA` it has Name `100644` and Mode `my`. -/
theorem entry_name_and_mode_exchanged (s0 s1 : List Byte) :
    TreeContent [⟨ascii "100644 file.txt", s0⟩, ⟨digestA, s1⟩]
        = .done ⟨[⟨ascii "100644", ascii "file.txt", ascii "0102030405060708090a0b0c0d0e0f10111213"⟩]⟩
      ∧ TreeContent [⟨ascii "100644 my file.txt", s0⟩, ⟨digestA, s1⟩]
        = .done ⟨[⟨ascii "100644", ascii "my", ascii "0102030405060708090a0b0c0d0e0f10111213"⟩]⟩ := by
  constructor
  · exact TreeContent_eq ⟨ascii "100644 file.txt", s0⟩ [⟨digestA, s1⟩] (ascii "100644")
      (ascii "file.txt") [] rfl (by simp [digestA])
  · exact TreeContent_eq ⟨ascii "100644 my file.txt", s0⟩ [⟨digestA, s1⟩] (ascii "100644")
      (ascii "my") [ascii "file.txt"] rfl (by simp [digestA])


/-! ## `Objects` -/

theorem MatchString_iff (name : List Byte) : MatchString name = true ↔ twoHexChars name := by
  rcases name with _ | ⟨a, _ | ⟨b, _ | ⟨c, l⟩⟩⟩ <;>
    simp [MatchString, twoHexChars, isLowerHex]

theorem picked_iff (d : FileInfo) : (d.IsDir && MatchString d.Name) = true ↔ picked d := by
  simp [picked, MatchString_iff]

theorem readsOk_eq (sha1 : List Byte → List Byte) (fs : FileSystem) (p : List Byte)
    (h : readsOk sha1 fs p = true) :
    ReadObject sha1 (fs.file p) = .done (objectAt sha1 fs p, none) := by
  unfold readsOk at h
  unfold objectAt
  split at h <;> simp_all

theorem listsOk_eq (fs : FileSystem) (dir : List Byte) (h : listsOk fs dir = true) :
    ∃ files, fs.ReadDir dir = .ok files := by
  unfold listsOk at h
  split at h
  · exact ⟨_, by assumption⟩
  · exact absurd h (by simp)

theorem readFiles_append (sha1 : List Byte → List Byte) (fs : FileSystem) (dir : List Byte)
    (post : List FileInfo) :
    ∀ (pre : List FileInfo) (objects : List Object) (opened : List (List Byte)),
      (∀ f ∈ pre, readsOk sha1 fs (dir ++ ascii "/" ++ f.Name) = true) →
      readFiles sha1 fs dir (pre ++ post) objects opened
        = readFiles sha1 fs dir post
            (objects ++ pre.map (fun f => objectAt sha1 fs (dir ++ ascii "/" ++ f.Name)))
            (opened ++ pre.map (fun f => dir ++ ascii "/" ++ f.Name)) := by
  intro pre
  induction pre with
  | nil => intro objects opened _; simp
  | cons f pre ih =>
    intro objects opened h
    have hf := readsOk_eq sha1 fs _ (h f (by simp))
    rw [List.cons_append, readFiles]
    simp only [hf]
    rw [ih _ _ (fun g hg => h g (by simp [hg]))]
    simp

theorem scanFolders_skip (sha1 : List Byte → List Byte) (fs : FileSystem) (repoDir : List Byte)
    (d : FileInfo) (rest : List FileInfo) (objects : List Object) (opened : List (List Byte))
    (h : ¬ picked d) :
    scanFolders sha1 fs repoDir (d :: rest) objects opened
      = scanFolders sha1 fs repoDir rest objects opened := by
  rw [scanFolders, if_neg (fun e => h ((picked_iff d).mp e))]

theorem scanFolders_listed (sha1 : List Byte → List Byte) (fs : FileSystem)
    (repoDir : List Byte) (d : FileInfo) (rest files : List FileInfo) (objects : List Object)
    (opened : List (List Byte)) (h : picked d)
    (hl : fs.ReadDir (dirName repoDir d) = .ok files) :
    scanFolders sha1 fs repoDir (d :: rest) objects opened
      = match readFiles sha1 fs (dirName repoDir d) files objects opened with
        | .panic p => .panic p
        | .done ⟨objects, some err, opened⟩ => .done ⟨objects, some err, opened⟩
        | .done ⟨objects, none, opened⟩ => scanFolders sha1 fs repoDir rest objects opened := by
  rw [scanFolders, if_pos ((picked_iff d).mpr h)]
  simp only [dirName] at hl ⊢
  simp only [hl]

theorem storeFiles_cons_picked (fs : FileSystem) (repoDir : List Byte) (d : FileInfo)
    (rest : List FileInfo) (h : picked d) :
    storeFiles fs repoDir (d :: rest) = filesOf fs repoDir d ++ storeFiles fs repoDir rest := by
  simp [storeFiles, List.filter_cons, h]

theorem storeFiles_cons_skip (fs : FileSystem) (repoDir : List Byte) (d : FileInfo)
    (rest : List FileInfo) (h : ¬ picked d) :
    storeFiles fs repoDir (d :: rest) = storeFiles fs repoDir rest := by
  simp [storeFiles, List.filter_cons, h]

theorem scanFolders_append (sha1 : List Byte → List Byte) (fs : FileSystem)
    (repoDir : List Byte) (post : List FileInfo) :
    ∀ (pre : List FileInfo) (objects : List Object) (opened : List (List Byte)),
      clean sha1 fs repoDir pre →
      scanFolders sha1 fs repoDir (pre ++ post) objects opened
        = scanFolders sha1 fs repoDir post
            (objects ++ (storeFiles fs repoDir pre).map (objectAt sha1 fs))
            (opened ++ storeFiles fs repoDir pre) := by
  intro pre
  induction pre with
  | nil => intro objects opened _; simp [storeFiles]
  | cons d pre ih =>
    intro objects opened h
    have hpre : clean sha1 fs repoDir pre := fun x hx => h x (by simp [hx])
    by_cases hd : picked d
    · obtain ⟨hl, hr⟩ := h d (by simp) hd
      obtain ⟨files, hfiles⟩ := listsOk_eq fs _ hl
      have hfo : filesOf fs repoDir d = files.map (fileName repoDir d) := by
        simp [filesOf, hfiles]
      rw [hfo] at hr
      have hall : ∀ f ∈ files,
          readsOk sha1 fs (dirName repoDir d ++ ascii "/" ++ f.Name) = true :=
        fun f hf => hr _ (List.mem_map_of_mem _ hf)
      have hrf := readFiles_append sha1 fs (dirName repoDir d) [] files objects opened hall
      rw [List.append_nil] at hrf
      rw [List.cons_append, scanFolders_listed sha1 fs repoDir d _ files objects opened hd hfiles,
        hrf, readFiles]
      simp only
      have hfn : fileName repoDir d = fun f => dirName repoDir d ++ (ascii "/" ++ f.Name) := by
        funext f; simp [fileName]
      rw [ih _ _ hpre, storeFiles_cons_picked fs repoDir d pre hd, hfo]
      simp [hfn, List.map_map, Function.comp_def]
    · rw [List.cons_append, scanFolders_skip sha1 fs repoDir d _ objects opened hd,
        ih _ _ hpre, storeFiles_cons_skip fs repoDir d pre hd]


/-! ## The two fields of a prefix -/

theorem Split_takeWhile (sep : Byte) :
    ∀ s : List Byte, Split s sep
      = s.takeWhile (fun b => b ≠ sep)
          :: (match s.dropWhile (fun b => b ≠ sep) with
              | [] => []
              | _ :: tl => Split tl sep) := by
  intro s
  induction s with
  | nil => simp [Split]
  | cons b rest ih =>
    by_cases h : b = sep
    · subst h
      rw [Split, if_pos rfl]
      simp
    · rw [Split_cons_ne sep b rest h, ih]
      simp [h]

theorem dropWhile_space (s : List Byte) (h : (32 : Byte) ∈ s) :
    s.dropWhile (fun b => b ≠ 32) = 32 :: afterSpace s := by
  unfold afterSpace
  induction s with
  | nil => simp at h
  | cons b rest ih =>
    by_cases hb : b = 32
    · subst hb; simp
    · have hr : (32 : Byte) ∈ rest := by
        rcases List.mem_cons.mp h with e | e
        · exact absurd e.symm hb
        · exact e
      simpa [hb] using ih hr

theorem Split_space (s : List Byte) (h : (32 : Byte) ∈ s) :
    ∃ more, Split s 32 = beforeSpace s :: beforeSpace (afterSpace s) :: more := by
  rw [Split_takeWhile 32 s, dropWhile_space s h]
  simp only
  rw [Split_takeWhile 32 (afterSpace s)]
  exact ⟨_, rfl⟩


/-! ## The claims, continued -/

/-- C11. Entry digest length: the claim asks for the hex rendering of the first
20 bytes of the segment, 40 characters; on the segments `"100644 file.txt"`,
`digestA` the entry carries the hex rendering of the first 19 bytes, 38
characters, which is not the rendering of the 20-byte digest. -/
theorem entry_hash_has_nineteen_bytes (s0 s1 : List Byte) :
    ∃ e : ObjectFile,
      TreeContent [⟨ascii "100644 file.txt", s0⟩, ⟨digestA, s1⟩] = .done ⟨[e]⟩
        ∧ e.Hash = Sprintf_x (digestA.take 19) ∧ e.Hash.length = 38
        ∧ e.Hash ≠ Sprintf_x (digestA.take 20) := by
  refine ⟨⟨ascii "100644", ascii "file.txt", Sprintf_x (digestA.take 19)⟩, ?_, rfl, ?_, ?_⟩
  · exact TreeContent_eq ⟨ascii "100644 file.txt", s0⟩ [⟨digestA, s1⟩] (ascii "100644")
      (ascii "file.txt") [] rfl (by simp [digestA])
  · decide
  · decide

/-- C12. Malformed tree rejection: the claim asks for a failure reported to the
caller.  A prefix without a space makes `TreeContent`, and `ReadObject`
through it, panic with an index out of range; a 3-byte segment in the place
of a digest makes `TreeContent` panic when its capacity is below 19, and
yields a directory entry whose hash runs over the bytes behind the segment
when the capacity reaches 19. -/
theorem malformed_tree_panics_or_decodes (sha1 : List Byte → List Byte) (s0 s1 spare : List Byte) :
    TreeContent [⟨ascii "abc", s0⟩, ⟨digestA, s1⟩] = .panic .indexOutOfRange
      ∧ ReadObject sha1 (.data ⟨ascii "tree 24\x00abc\x00" ++ digestA, spare⟩)
          = .panic .indexOutOfRange
      ∧ TreeContent [⟨ascii "100644 a", s0⟩, ⟨[1, 2, 3], []⟩] = .panic .sliceBoundsOutOfRange
      ∧ TreeContent [⟨ascii "100644 a", s0⟩, ⟨[1, 2, 3], List.replicate 16 0⟩]
          = .done ⟨[⟨ascii "100644", ascii "a", ascii "01020300000000000000000000000000000000"⟩]⟩ := by
  refine ⟨rfl, ?_, rfl, rfl⟩
  simp only [ReadObject, scanChunks_eq]
  rfl

/-- C14. Totality of decoding: the claim asks that segment 0 always exists and
that `ReadObject` returns an object or a failure.  On the empty buffer the
scan yields no chunk and `chunks[0]` in `ReadObject` is out of range; on the
empty blob `"blob 0\0"` and on a buffer without a null the scan yields one
chunk and `chunks[0]` in `TreeContent` is out of range. -/
theorem short_buffers_panic (sha1 : List Byte → List Byte) (spare : List Byte) :
    scanChunks ⟨[], spare⟩ = .done []
      ∧ ReadObject sha1 (.data ⟨[], spare⟩) = .panic .indexOutOfRange
      ∧ ReadObject sha1 (.data ⟨ascii "blob 0\x00", spare⟩) = .panic .indexOutOfRange
      ∧ ReadObject sha1 (.data ⟨ascii "blob 3", spare⟩) = .panic .indexOutOfRange := by
  refine ⟨?_, ?_, ?_, ?_⟩
  · rw [scanChunks_eq]; rfl
  · simp only [ReadObject, scanChunks_eq]; rfl
  · simp only [ReadObject, scanChunks_eq]; rfl
  · simp only [ReadObject, scanChunks_eq]; rfl

/-- C15. Dispatch by segment count: when the buffer splits into `k ≥ 3`
segments, segment 1 contains a space and every later segment has at least 19
bytes, `ReadObject` returns, with a nil error, an object whose Content is a
directory content with `k - 2` entries, one for each later segment in order
(its Hash is the hex rendering of the first 19 bytes of that segment),
whatever the header segment is. -/
theorem dispatch_by_segment_count (sha1 : List Byte → List Byte) (raw header first : Slice)
    (rest : List Slice) (hs : scanChunks raw = .done (header :: first :: rest))
    (hk : 3 ≤ (header :: first :: rest).length) (h1 : (32 : Byte) ∈ first.elems)
    (h2 : ∀ c ∈ rest, 19 ≤ c.len) :
    ∃ (obj : Object) (files : List ObjectFile),
      ReadObject sha1 (.data raw) = .done (obj, none)
        ∧ obj.Content = some (.tree ⟨files⟩)
        ∧ files.length = (header :: first :: rest).length - 2
        ∧ files.map (fun e => e.Hash) = rest.map (fun c => Sprintf_x (c.elems.take 19)) := by
  obtain ⟨more, hsp⟩ := Split_space first.elems h1
  have hc : cut raw.spare [] raw.elems = header :: first :: rest := by
    have := scanChunks_eq raw
    rw [hs] at this
    exact (Run.done.inj this).symm
  have hr : rest ≠ [] := by
    intro e; subst e; simp at hk
  refine ⟨_, _, ReadObject_more_chunks sha1 raw header first rest _ _ more hc hr hsp h2, rfl, ?_, ?_⟩
  · simp
  · simp [List.map_map, Function.comp_def]

set_option maxRecDepth 100000 in
/-- A commit whose payload holds a null byte is decoded as a directory content
with one entry. -/
theorem dispatch_by_segment_count_witness :
    scanChunks ⟨ascii "commit 24\x00a b\x00" ++ digestA, []⟩
        = .done [⟨ascii "commit 24", ascii "\x00a b\x00" ++ digestA⟩,
            ⟨ascii "a b", 0 :: digestA⟩, ⟨digestA, []⟩]
      ∧ 3 ≤ [(⟨ascii "commit 24", ascii "\x00a b\x00" ++ digestA⟩ : Slice),
            ⟨ascii "a b", 0 :: digestA⟩, ⟨digestA, []⟩].length
      ∧ (32 : Byte) ∈ ascii "a b"
      ∧ (∀ c ∈ [(⟨digestA, []⟩ : Slice)], 19 ≤ c.len)
      ∧ ∃ (obj : Object) (files : List ObjectFile),
          ReadObject sampleHash (.data ⟨ascii "commit 24\x00a b\x00" ++ digestA, []⟩)
              = .done (obj, none)
            ∧ obj.Content = some (.tree ⟨files⟩)
            ∧ files.length = 3 - 2
            ∧ files.map (fun e => e.Hash) = [Sprintf_x (digestA.take 19)] :=
  ⟨by decide, by decide, by decide, by decide,
    dispatch_by_segment_count sampleHash ⟨ascii "commit 24\x00a b\x00" ++ digestA, []⟩
      ⟨ascii "commit 24", ascii "\x00a b\x00" ++ digestA⟩ ⟨ascii "a b", 0 :: digestA⟩
      [⟨digestA, []⟩] (by decide) (by decide) (by decide) (by decide)⟩

/-- C16. Store traversal: when the objects directory lists `folders` and
nothing fails in them, `Objects` returns a nil error and exactly one object
per file of the entries that are directories with a name of two characters
from `0-9a-f`, directories in listing order and files in listing order within
each; the other entries contribute nothing. -/
theorem objects_one_per_file (sha1 : List Byte → List Byte) (fs : FileSystem)
    (repoDir : List Byte) (folders : List FileInfo)
    (hl : fs.ReadDir (repoDir ++ ascii "/.git/objects") = .ok folders)
    (hc : clean sha1 fs repoDir folders) :
    ∃ scan : Scan, Objects sha1 fs repoDir = .done scan ∧ scan.err = none
      ∧ scan.objects = (storeFiles fs repoDir folders).map (objectAt sha1 fs)
      ∧ scan.objects.length
          = ((folders.filter (fun d => decide (picked d))).map
              (fun d => (filesOf fs repoDir d).length)).sum := by
  have h := scanFolders_append sha1 fs repoDir [] folders [] [] hc
  rw [List.append_nil, scanFolders] at h
  refine ⟨_, by rw [Objects, hl]; exact h, rfl, by simp, ?_⟩
  simp [storeFiles, List.length_flatMap, Function.comp_def]


set_option maxRecDepth 100000 in
/-- The store with the entries `AB`, `ab`, `abc`, `cd` (a file), `info` and
`pack`: the two files of `ab` give the two objects. -/
theorem objects_one_per_file_witness :
    sampleStore.ReadDir (ascii "repo" ++ ascii "/.git/objects")
        = .ok [⟨ascii "AB", true⟩, ⟨ascii "ab", true⟩, ⟨ascii "abc", true⟩, ⟨ascii "cd", false⟩,
            ⟨ascii "info", true⟩, ⟨ascii "pack", true⟩]
      ∧ clean sampleHash sampleStore (ascii "repo")
          [⟨ascii "AB", true⟩, ⟨ascii "ab", true⟩, ⟨ascii "abc", true⟩, ⟨ascii "cd", false⟩,
            ⟨ascii "info", true⟩, ⟨ascii "pack", true⟩]
      ∧ ∃ scan : Scan, Objects sampleHash sampleStore (ascii "repo") = .done scan
          ∧ scan.err = none
          ∧ scan.objects
              = [⟨ascii "blob", 5, some (.str (ascii "hello")),
                    ascii "0c0c0c0c0c0c0c0c0c0c0c0c0c0c0c0c0c0c0c0c"⟩,
                  ⟨ascii "blob", 2, some (.str (ascii "hi")),
                    ascii "0909090909090909090909090909090909090909"⟩]
          ∧ scan.objects.length = 2 :=
  ⟨rfl, by decide, by
    obtain ⟨scan, h1, h2, h3, _⟩ := objects_one_per_file sampleHash sampleStore (ascii "repo")
      [⟨ascii "AB", true⟩, ⟨ascii "ab", true⟩, ⟨ascii "abc", true⟩, ⟨ascii "cd", false⟩,
        ⟨ascii "info", true⟩, ⟨ascii "pack", true⟩] rfl (by decide)
    have h5 := h3.trans (show _ = [(⟨ascii "blob", 5, some (.str (ascii "hello")),
                    ascii "0c0c0c0c0c0c0c0c0c0c0c0c0c0c0c0c0c0c0c0c"⟩ : Object),
                  ⟨ascii "blob", 2, some (.str (ascii "hi")),
                    ascii "0909090909090909090909090909090909090909"⟩] from by decide)
    exact ⟨scan, h1, h2, h5, by rw [h5]; rfl⟩⟩

set_option maxRecDepth 100000 in
/-- C13, as stated, fails: in a store whose directory `ab` holds a blob and then
a file that is not a zlib stream, `Objects` returns the error together with
the object read before it, not an empty list. -/
theorem objects_returns_objects_read_so_far :
    Objects sampleHash brokenStore (ascii "repo")
      = .done ⟨[⟨ascii "blob", 5, some (.str (ascii "hello")),
                ascii "0c0c0c0c0c0c0c0c0c0c0c0c0c0c0c0c0c0c0c0c"⟩],
          some .zlibHeader,
          [ascii "repo/.git/objects/ab/f1", ascii "repo/.git/objects/ab/f2"]⟩ := by
  decide

/-- C13, amended. Fail-fast scan: when listing a picked directory fails, or
`ReadObject` returns an error for a file, and nothing fails before it in
traversal order, `Objects` returns that error together with the objects read
before the failure, having handed to `ReadObject` the files before the failure
and, for a failing read, the failing file, and no later file; when nothing
fails it returns a nil error. -/
theorem objects_stops_at_first_failure (sha1 : List Byte → List Byte) (fs : FileSystem)
    (repoDir : List Byte) :
    (∀ (pre post : List FileInfo) (d : FileInfo) (err : GoError),
        fs.ReadDir (repoDir ++ ascii "/.git/objects") = .ok (pre ++ d :: post) →
        clean sha1 fs repoDir pre → picked d →
        fs.ReadDir (dirName repoDir d) = .error err →
        Objects sha1 fs repoDir
          = .done ⟨(storeFiles fs repoDir pre).map (objectAt sha1 fs), some err,
              storeFiles fs repoDir pre⟩)
    ∧ (∀ (pre post : List FileInfo) (d : FileInfo) (fpre fpost : List FileInfo) (f : FileInfo)
        (object : Object) (err : GoError),
        fs.ReadDir (repoDir ++ ascii "/.git/objects") = .ok (pre ++ d :: post) →
        clean sha1 fs repoDir pre → picked d →
        fs.ReadDir (dirName repoDir d) = .ok (fpre ++ f :: fpost) →
        (∀ g ∈ fpre, readsOk sha1 fs (fileName repoDir d g) = true) →
        ReadObject sha1 (fs.file (fileName repoDir d f)) = .done (object, some err) →
        Objects sha1 fs repoDir
          = .done ⟨(storeFiles fs repoDir pre ++ fpre.map (fileName repoDir d)).map
                (objectAt sha1 fs), some err,
              storeFiles fs repoDir pre ++ fpre.map (fileName repoDir d)
                ++ [fileName repoDir d f]⟩)
    ∧ (∀ folders : List FileInfo,
        fs.ReadDir (repoDir ++ ascii "/.git/objects") = .ok folders →
        clean sha1 fs repoDir folders →
        Objects sha1 fs repoDir
          = .done ⟨(storeFiles fs repoDir folders).map (objectAt sha1 fs), none,
              storeFiles fs repoDir folders⟩) := by
  refine ⟨?_, ?_, ?_⟩
  · intro pre post d err hl hc hd he
    rw [Objects, hl]
    simp only
    rw [scanFolders_append sha1 fs repoDir _ pre [] [] hc, scanFolders,
      if_pos ((picked_iff d).mpr hd)]
    simp only [dirName] at he
    simp only [he, List.nil_append]
  · intro pre post d fpre fpost f object err hl hc hd hf hg hr
    rw [Objects, hl]
    simp only
    rw [scanFolders_append sha1 fs repoDir _ pre [] [] hc,
      scanFolders_listed sha1 fs repoDir d post _ _ _ hd hf,
      readFiles_append sha1 fs (dirName repoDir d) _ fpre _ _ hg, readFiles]
    simp only [fileName] at hr
    rw [List.append_assoc] at hr
    have hfn : fileName repoDir d = fun f => dirName repoDir d ++ (ascii "/" ++ f.Name) := by
      funext f; simp [fileName]
    simp [hr, hfn, fileName, List.map_map, Function.comp_def]
  · intro folders hl hc
    have h := scanFolders_append sha1 fs repoDir [] folders [] [] hc
    rw [List.append_nil, scanFolders] at h
    rw [Objects, hl]
    simpa using h


set_option maxRecDepth 100000 in
/-- The three cases at concrete stores: a second object directory that cannot
be listed, a second file that is not a zlib stream (the third file is not
read), and a store in which nothing fails. -/
theorem objects_stops_at_first_failure_witness :
    Objects sampleHash unlistedStore (ascii "repo")
        = .done ⟨[⟨ascii "blob", 5, some (.str (ascii "hello")),
                  ascii "0c0c0c0c0c0c0c0c0c0c0c0c0c0c0c0c0c0c0c0c"⟩],
            some .pathError, [ascii "repo/.git/objects/ab/f1"]⟩
      ∧ Objects sampleHash brokenStore (ascii "repo")
        = .done ⟨[⟨ascii "blob", 5, some (.str (ascii "hello")),
                  ascii "0c0c0c0c0c0c0c0c0c0c0c0c0c0c0c0c0c0c0c0c"⟩],
            some .zlibHeader,
            [ascii "repo/.git/objects/ab/f1", ascii "repo/.git/objects/ab/f2"]⟩
      ∧ Objects sampleHash sampleStore (ascii "repo")
        = .done ⟨[⟨ascii "blob", 5, some (.str (ascii "hello")),
                  ascii "0c0c0c0c0c0c0c0c0c0c0c0c0c0c0c0c0c0c0c0c"⟩,
                ⟨ascii "blob", 2, some (.str (ascii "hi")),
                  ascii "0909090909090909090909090909090909090909"⟩],
            none, [ascii "repo/.git/objects/ab/f1", ascii "repo/.git/objects/ab/f2"]⟩ :=
  ⟨(objects_stops_at_first_failure sampleHash unlistedStore (ascii "repo")).1
      [⟨ascii "ab", true⟩] [⟨ascii "ef", true⟩] ⟨ascii "cd", true⟩ .pathError
      rfl (by decide) (by decide) rfl,
    (objects_stops_at_first_failure sampleHash brokenStore (ascii "repo")).2.1
      [] [⟨ascii "cd", true⟩] ⟨ascii "ab", true⟩ [⟨ascii "f1", false⟩] [⟨ascii "f3", false⟩]
      ⟨ascii "f2", false⟩ Object.zero .zlibHeader
      rfl (by decide) (by decide) rfl (by decide) rfl,
    (objects_stops_at_first_failure sampleHash sampleStore (ascii "repo")).2.2
      [⟨ascii "AB", true⟩, ⟨ascii "ab", true⟩, ⟨ascii "abc", true⟩, ⟨ascii "cd", false⟩,
        ⟨ascii "info", true⟩, ⟨ascii "pack", true⟩] rfl (by decide)⟩

/-- C17. Every entry repeats the first prefix: when the first segment of a call
of `TreeContent` contains a space and every later segment has at least 19
bytes, the call returns one entry per later segment, each with Name the text
of the first segment before its first space and Mode the text between its
first and its second space (to the end when there is no second space), and
with Hash the hex rendering of the first 19 bytes of its segment; no other
byte of a later segment enters an entry. -/
theorem entries_repeat_first_segment (first : Slice) (rest : List Slice)
    (h1 : (32 : Byte) ∈ first.elems) (h2 : ∀ c ∈ rest, 19 ≤ c.len) :
    TreeContent (first :: rest)
      = .done ⟨rest.map (fun c =>
          ⟨beforeSpace first.elems, beforeSpace (afterSpace first.elems),
            Sprintf_x (c.elems.take 19)⟩)⟩ := by
  obtain ⟨more, hsp⟩ := Split_space first.elems h1
  exact TreeContent_eq first rest _ _ more hsp h2

set_option maxRecDepth 100000 in
/-- Two records packed back to back: both entries carry `100644` and `a.txt`,
the bytes `40000 dir` behind the first digest enter no entry. -/
theorem entries_repeat_first_segment_witness :
    (32 : Byte) ∈ ascii "100644 a.txt"
      ∧ (∀ c ∈ [(⟨digestA ++ ascii "40000 dir", 0 :: digestB⟩ : Slice), ⟨digestB, []⟩], 19 ≤ c.len)
      ∧ TreeContent [⟨ascii "100644 a.txt", []⟩, ⟨digestA ++ ascii "40000 dir", 0 :: digestB⟩,
            ⟨digestB, []⟩]
          = .done ⟨[⟨ascii "100644", ascii "a.txt", ascii "0102030405060708090a0b0c0d0e0f10111213"⟩,
              ⟨ascii "100644", ascii "a.txt", ascii "2122232425262728292a2b2c2d2e2f30313233"⟩]⟩ :=
  ⟨by decide, by decide,
    entries_repeat_first_segment ⟨ascii "100644 a.txt", []⟩
      [⟨digestA ++ ascii "40000 dir", 0 :: digestB⟩, ⟨digestB, []⟩] (by decide) (by decide)⟩

/-- C18. Frame of `Header`: it never changes Sha1 or Content; when the header
does not split into exactly two fields, or the size field is not accepted by
`Atoi`, it leaves the whole object unchanged; and it either leaves the object
unchanged or writes both Type and Size, from a header of two fields whose
second `Atoi` accepts. -/
theorem header_frame (h : List Byte) (obj : Object) :
    (Header h obj).1.Sha1 = obj.Sha1 ∧ (Header h obj).1.Content = obj.Content
      ∧ ((Split h 32).length ≠ 2 → (Header h obj).1 = obj)
      ∧ (∀ (t n : List Byte) (e : NumError),
          Split h 32 = [t, n] → Atoi n = .error e → (Header h obj).1 = obj)
      ∧ ((Header h obj).1 = obj
          ∨ ∃ (t n : List Byte) (size : Int), Split h 32 = [t, n] ∧ Atoi n = .ok size
              ∧ (Header h obj).1 = { obj with Typ := t, Size := size }) := by
  simp only [Header]
  split
  · rename_i t n hs
    split
    · rename_i e he
      refine ⟨rfl, rfl, fun _ => rfl, fun _ _ _ _ _ => rfl, Or.inl rfl⟩
    · rename_i size he
      refine ⟨rfl, rfl, ?_, ?_, Or.inr ⟨t, n, size, hs, he, rfl⟩⟩
      · intro hl; rw [hs] at hl; exact absurd rfl hl
      · intro t2 n2 e h2 h3
        rw [hs] at h2
        simp only [List.cons.injEq, and_true] at h2
        rw [← h2.2, he] at h3
        exact absurd h3 (by simp)
  · exact ⟨rfl, rfl, fun _ => rfl, fun _ _ _ _ _ => rfl, Or.inl rfl⟩

end Githack
